import Mathlib

/-!
# Verification of the cccwiki content-transform pipeline and versioning engine

Shallow embedding of `src/wiki.py` (grantmd/cccwiki).  Strings are modelled
as `List Char` (the Python 2 source works on byte strings; page content here
is ASCII text).  Each Python 2 regular expression is embedded as a
match-at-position function returning the length of the (leftmost-greedy)
match the pattern produces at that exact position, derived from the
backtracking semantics of the `re` module; `finditer` is then embedded as a
scan that tries successive start positions, exactly as the `re` scanner does.

External collaborators (the App Engine datastore, memcache, `difflib`,
`users`) are modelled as explicit state or function parameters, following
the spec's architecture (storage and cache are collaborator interfaces).
-/

set_option maxRecDepth 8000

/-- Python slicing `content[a:b]` for `0 ≤ a, b` (as used by
`Transform.run`): take the first `b` characters, drop the first `a`. -/
def pySlice (l : List Char) (a b : Nat) : List Char :=
  (l.take b).drop a

/-- `[A-Z]` (ASCII, as in the source's patterns; Python 2 `re` without
`re.UNICODE` is ASCII-only). -/
def isUpper (c : Char) : Bool :=
  'A' ≤ c && c ≤ 'Z'

/-- `[a-z]` (ASCII). -/
def isLower (c : Char) : Bool :=
  'a' ≤ c && c ≤ 'z'

/-- `[0-9]`. -/
def isDigit (c : Char) : Bool :=
  '0' ≤ c && c ≤ '9'

/-- Python 2 `\w` with default flags: `[A-Za-z0-9_]`.  Note that it
includes the underscore. -/
def isWordChar (c : Char) : Bool :=
  isUpper c || isLower c || isDigit c || c == '_'

/-- `[A-Z0-9]`: the character class that starts each segment of
`_VALID_WIKINAME = re.compile(r'([A-Z0-9])\w+(([A-Z0-9])\w+)+')`. -/
def isSegStart (c : Char) : Bool :=
  isUpper c || isDigit c

/-- Length of the maximal prefix of `l` whose characters satisfy `p`
(used to embed greedy `X+` repetition of a character class `X`). -/
def runLen (p : Char → Bool) : List Char → Nat
  | [] => 0
  | c :: cs => if p c then runLen p cs + 1 else 0

/-- Abstraction for a regular expression transform (`class Transform`,
`src/wiki.py` 316-343).  `regexp content pos` is the embedded compiled
pattern: `some n` when the pattern matches at exactly position `pos`,
producing a match of `n` characters (the length the Python backtracking
engine yields there); `none` when no match starts at `pos`.  `replace`
maps the matched text (`match.group(0)`) to its replacement; each concrete
transform recovers its capture groups from the matched text. -/
structure Transform where
  regexp : List Char → Nat → Option Nat
  replace : List Char → List Char

/-- One step of the `re` scanner: try the pattern at `pos`, `pos + 1`, ...
and return the first (leftmost) position where it matches, together with
the match's end.  `fuel` bounds the scan; `findFrom` below supplies enough
fuel to reach the end of the string. -/
def findFromAux (m : List Char → Nat → Option Nat) (content : List Char) :
    Nat → Nat → Option (Nat × Nat)
  | 0, _ => none
  | fuel + 1, pos =>
    if content.length < pos then none
    else
      match m content pos with
      | some len => some (pos, pos + len)
      | none => findFromAux m content fuel (pos + 1)

/-- The leftmost match of the pattern starting at or after `pos`. -/
def findFrom (m : List Char → Nat → Option Nat) (content : List Char) (pos : Nat) :
    Option (Nat × Nat) :=
  findFromAux m content (content.length + 1 - pos) pos

/-- The successive non-overlapping matches of `re.finditer`: after a match
`(s, e)` scanning resumes at `e`, or at `s + 1` when the match was empty
(the `re` scanner's zero-width rule).  `fuel` bounds the number of matches;
`findMatches` supplies enough. -/
def findMatchesAux (m : List Char → Nat → Option Nat) (content : List Char) :
    Nat → Nat → List (Nat × Nat)
  | 0, _ => []
  | fuel + 1, pos =>
    match findFrom m content pos with
    | none => []
    | some (s, e) => (s, e) :: findMatchesAux m content fuel (max e (s + 1))

/-- All matches `re.finditer(pattern, content)` yields, as
(start, end) pairs in scan order. -/
def findMatches (m : List Char → Nat → Option Nat) (content : List Char) :
    List (Nat × Nat) :=
  findMatchesAux m content (content.length + 1) 0

/-- The parts list built by `Transform.run` (`src/wiki.py` 331-343): for
each match, `content[offset:match.start(0)]` then `self.replace(match)`,
with `offset` advancing to `match.end(0)`; after the loop,
`content[offset:]`. -/
def runPartsList (rep : List Char → List Char) (content : List Char) :
    List (Nat × Nat) → Nat → List (List Char)
  | [], offset => [content.drop offset]
  | (s, e) :: rest, offset =>
    pySlice content offset s :: rep (pySlice content s e) ::
      runPartsList rep content rest e

/-- `Transform.run` (`src/wiki.py` 331-343): the joined parts list. -/
def Transform.run (t : Transform) (content : List Char) : List Char :=
  (runPartsList t.replace content (findMatches t.regexp content) 0).flatten

/-- The output the spec describes: scanning left to right over the match
list, emit the text between the previous match's end and this match's
start unchanged, then the replacement; after the last match emit the
remaining tail unchanged. -/
def specScan (rep : List Char → List Char) (content : List Char) :
    List (Nat × Nat) → Nat → List Char
  | [], prevEnd => content.drop prevEnd
  | (s, e) :: rest, prevEnd =>
    pySlice content prevEnd s ++ rep (pySlice content s e) ++
      specScan rep content rest e

/-- The match list `ms`, starting the scan at `pos`, is a leftmost
non-overlapping sequence of matches of `m` over `content`: each listed
match really is a match of the pattern at its start position, no earlier
position at or after the scan point matches, and scanning resumes past
each match's end (strictly past its start when the match is empty). -/
def MatchChain (m : List Char → Nat → Option Nat) (content : List Char) :
    Nat → List (Nat × Nat) → Prop
  | pos, [] => ∀ q, pos ≤ q → q ≤ content.length → m content q = none
  | pos, (s, e) :: rest =>
    pos ≤ s ∧ s ≤ content.length ∧ m content s = some (e - s) ∧ s ≤ e ∧
      (∀ q, pos ≤ q → q < s → m content q = none) ∧
      MatchChain m content (max e (s + 1)) rest

theorem findFromAux_some {m : List Char → Nat → Option Nat} {content : List Char}
    {fuel pos s e : Nat} (h : findFromAux m content fuel pos = some (s, e)) :
    pos ≤ s ∧ s ≤ content.length ∧ m content s = some (e - s) ∧ s ≤ e ∧
      ∀ q, pos ≤ q → q < s → m content q = none := by
  induction fuel generalizing pos with
  | zero => simp [findFromAux] at h
  | succ fuel ih =>
    rw [findFromAux] at h
    by_cases hlen : content.length < pos
    · simp [hlen] at h
    · simp [hlen] at h
      cases hm : m content pos with
      | some len =>
        rw [hm] at h
        injection h with h'
        injection h' with h1 h2
        subst h1; subst h2
        refine ⟨Nat.le_refl _, Nat.le_of_not_lt hlen, ?_, Nat.le_add_right _ _, ?_⟩
        · simpa using hm
        · intro q hq1 hq2; omega
      | none =>
        rw [hm] at h
        obtain ⟨h1, h2, h3, h4, h5⟩ := ih h
        refine ⟨by omega, h2, h3, h4, ?_⟩
        intro q hq1 hq2
        rcases Nat.eq_or_lt_of_le hq1 with rfl | hq
        · exact hm
        · exact h5 q hq hq2

theorem findFromAux_none {m : List Char → Nat → Option Nat} {content : List Char}
    {fuel pos : Nat} (h : findFromAux m content fuel pos = none)
    (hfuel : content.length + 1 - pos ≤ fuel) :
    ∀ q, pos ≤ q → q ≤ content.length → m content q = none := by
  induction fuel generalizing pos with
  | zero => intro q hq1 hq2; omega
  | succ fuel ih =>
    rw [findFromAux] at h
    by_cases hlen : content.length < pos
    · intro q hq1 hq2; omega
    · simp [hlen] at h
      cases hm : m content pos with
      | some len => rw [hm] at h; simp at h
      | none =>
        rw [hm] at h
        intro q hq1 hq2
        rcases Nat.eq_or_lt_of_le hq1 with rfl | hq
        · exact hm
        · exact ih h (by omega) q hq hq2

theorem findFrom_some {m : List Char → Nat → Option Nat} {content : List Char}
    {pos s e : Nat} (h : findFrom m content pos = some (s, e)) :
    pos ≤ s ∧ s ≤ content.length ∧ m content s = some (e - s) ∧ s ≤ e ∧
      ∀ q, pos ≤ q → q < s → m content q = none :=
  findFromAux_some h

theorem findFrom_none {m : List Char → Nat → Option Nat} {content : List Char}
    {pos : Nat} (h : findFrom m content pos = none) :
    ∀ q, pos ≤ q → q ≤ content.length → m content q = none :=
  findFromAux_none h (Nat.le_refl _)

theorem matchChain_aux (m : List Char → Nat → Option Nat) (content : List Char) :
    ∀ fuel pos, content.length + 1 - pos ≤ fuel →
      MatchChain m content pos (findMatchesAux m content fuel pos) := by
  intro fuel
  induction fuel with
  | zero =>
    intro pos hfuel
    simp [findMatchesAux, MatchChain]
    intro q hq1 hq2; omega
  | succ fuel ih =>
    intro pos hfuel
    rw [findMatchesAux]
    cases hf : findFrom m content pos with
    | none =>
      simp [MatchChain]
      exact findFrom_none hf
    | some se =>
      obtain ⟨s, e⟩ := se
      obtain ⟨h1, h2, h3, h4, h5⟩ := findFrom_some hf
      simp [MatchChain]
      refine ⟨h1, h2, h3, h4, h5, ?_⟩
      exact ih (max e (s + 1)) (by omega)

/-- The match list of `finditer` is a leftmost non-overlapping chain. -/
theorem findMatches_chain (m : List Char → Nat → Option Nat) (content : List Char) :
    MatchChain m content 0 (findMatches m content) :=
  matchChain_aux m content (content.length + 1) 0 (by omega)

theorem matchChain_mem {m : List Char → Nat → Option Nat} {content : List Char} :
    ∀ {l : List (Nat × Nat)} {pos : Nat}, MatchChain m content pos l →
      ∀ se ∈ l, pos ≤ se.1 ∧ se.1 ≤ content.length ∧
        m content se.1 = some (se.2 - se.1) ∧ se.1 ≤ se.2 := by
  intro l
  induction l with
  | nil => intro pos _ se hse; simp at hse
  | cons hd tl ih =>
    intro pos hchain se hse
    obtain ⟨s, e⟩ := hd
    simp [MatchChain] at hchain
    obtain ⟨h1, h2, h3, h4, _, h6⟩ := hchain
    rcases List.mem_cons.mp hse with rfl | hmem
    · exact ⟨h1, h2, h3, h4⟩
    · obtain ⟨g1, g2, g3, g4⟩ := ih h6 se hmem
      exact ⟨by omega, g2, g3, g4⟩

theorem runPartsList_flatten (rep : List Char → List Char) (content : List Char) :
    ∀ (l : List (Nat × Nat)) (off : Nat),
      (runPartsList rep content l off).flatten = specScan rep content l off := by
  intro l
  induction l with
  | nil => intro off; simp [runPartsList, specScan]
  | cons hd tl ih =>
    intro off
    obtain ⟨s, e⟩ := hd
    simp [runPartsList, specScan, ih, List.append_assoc]

/-- **C1.** `Transform.run` scans the input left to right for leftmost
non-overlapping matches of the transform's pattern (`MatchChain`), and its
output is exactly: for each match in order, the text between the previous
match's end and this match's start unchanged, then the replacement of the
matched text; after the last match, the remaining tail unchanged
(`specScan`).  An input with no matches is returned unchanged. -/
theorem transform_run_spec (t : Transform) (content : List Char) :
    MatchChain t.regexp content 0 (findMatches t.regexp content) ∧
      t.run content = specScan t.replace content (findMatches t.regexp content) 0 ∧
      (findMatches t.regexp content = [] → t.run content = content) := by
  refine ⟨findMatches_chain t.regexp content, runPartsList_flatten _ _ _ _, ?_⟩
  intro hempty
  simp [Transform.run, hempty, runPartsList]

/-!
## The concrete transforms

`_VALID_WIKINAME = re.compile(r'([A-Z0-9])\w+(([A-Z0-9])\w+)+')`
(`src/wiki.py` 52).  Backtracking semantics at a position `p`: the first
character must be `[A-Z0-9]`; all consumed characters are `\w`; the two
greedy `\w+` groups force the match to extend to the end of the maximal
`\w` run starting at `p` (the final `\w+` is greedy and nothing follows
it), and the pattern succeeds exactly when some position `j` with
`p + 2 ≤ j` and at least two characters left before the run's end holds an
`[A-Z0-9]` character (the start of the required second `([A-Z0-9])\w+`
segment; any longer decomposition merges into this one).  So the match at
`p`, when it exists, is the whole `\w` run. -/

/-- The compiled `_VALID_WIKINAME` pattern as a match-at-position
function. -/
def wikinameMatchAt (content : List Char) (pos : Nat) : Option Nat :=
  match content.drop pos with
  | [] => none
  | c :: rest =>
    if isSegStart c then
      let n := runLen isWordChar (c :: rest)
      if (List.range n).any fun j =>
          decide (2 ≤ j) && decide (j + 2 ≤ n) && isSegStart ((c :: rest).getD j ' ') then
        some n
      else none
    else none

/-- `WikiWords.replace` (`src/wiki.py` 354-359), with the page-existence
lookup (`Page.exists`, a datastore read) injected as the oracle
`pageExists`, per the spec's `LinkExistenceOracle` collaborator. -/
def wikiWordsReplace (pageExists : List Char → Bool) (m : List Char) : List Char :=
  if pageExists m then
    "<a class=\"wikiword\" href=\"/".data ++ m ++ "\">".data ++ m ++ "</a>".data
  else
    "<a title=\"".data ++ m ++
      " does not exist yet. Click to create it.\" class=\"wikiword_new\" href=\"/".data ++
      m ++ "?mode=edit\">".data ++ m ++ "?</a>".data

/-- `class WikiWords(Transform)` (`src/wiki.py` 346-359). -/
def WikiWords (pageExists : List Char → Bool) : Transform :=
  ⟨wikinameMatchAt, wikiWordsReplace pageExists⟩

/-!
`AutoLink.__init__` (`src/wiki.py` 364-366) compiles
`([^"])\b((http|https)://[^ \t\n\r<>\(\)&"]+[^ \t\n\r<>\(\)&"\.])`.
At position `p`: group 1 consumes `content[p]`, which must not be `"`;
the following `\b` sits right before the scheme's `h` (a word character),
so it holds exactly when `content[p]` is not a word character; then the
alternation consumes `http://` or `https://`; the first greedy class
consumes URL characters and backtracks just enough for the final
character, which additionally must not be `.` — so the URL part is the
longest prefix of the URL-character run of length at least 2 whose last
character is not a period. -/

/-- `[^ \t\n\r<>\(\)&"]`: the URL character class of `AutoLink`. -/
def isUrlChar (c : Char) : Bool :=
  !(c == ' ' || c == '\t' || c == '\n' || c == '\r' || c == '<' || c == '>' ||
    c == '(' || c == ')' || c == '&' || c == '"')

/-- Length consumed after the scheme by
`[^ \t\n\r<>\(\)&"]+[^ \t\n\r<>\(\)&"\.]` (greedy, backtracking on the
final character): the largest `j ≤ runLen` with `2 ≤ j` whose last
character is not `.`, if any. -/
def autoLinkTailLen (tail : List Char) : Option Nat :=
  (List.range (runLen isUrlChar tail + 1)).reverse.find? fun j =>
    decide (2 ≤ j) && !(tail.getD (j - 1) ' ' == '.')

/-- The compiled `AutoLink` pattern as a match-at-position function. -/
def autoLinkMatchAt (content : List Char) (pos : Nat) : Option Nat :=
  match content.drop pos with
  | [] => none
  | c :: rest =>
    if c == '"' || isWordChar c then none
    else
      match if "http://".data.isPrefixOf rest then some 7
            else if "https://".data.isPrefixOf rest then some 8
            else none with
      | none => none
      | some k =>
        match autoLinkTailLen (rest.drop k) with
        | none => none
        | some j => some (1 + k + j)

/-- `AutoLink.replace` (`src/wiki.py` 368-370): group 1 is the matched
text's first character, group 2 (the URL) is the rest. -/
def autoLinkReplace (m : List Char) : List Char :=
  match m with
  | [] => []
  | c :: url =>
    c :: ("<a class=\"autourl\" href=\"".data ++ url ++ "\">".data ++ url ++ "</a>".data)

/-- `class AutoLink(Transform)` (`src/wiki.py` 362-370). -/
def AutoLink : Transform :=
  ⟨autoLinkMatchAt, autoLinkReplace⟩

/-!
`HideReferers.__init__` (`src/wiki.py` 376-377) compiles
`href="(http[^"]+)"`.  At position `p`: the text must start with
`href="http`; then `[^"]+` greedily consumes the run of non-quote
characters (at least one), and the closing `"` must follow — no shorter
stop can help, since every earlier stop sits on a non-quote character. -/

/-- The compiled `HideReferers` pattern as a match-at-position function. -/
def hideReferersMatchAt (content : List Char) (pos : Nat) : Option Nat :=
  let suf := content.drop pos
  if "href=\"http".data.isPrefixOf suf then
    let r := runLen (fun c => !(c == '"')) (suf.drop 10)
    if decide (1 ≤ r) && (suf.getD (10 + r) ' ' == '"') then some (10 + r + 1)
    else none
  else none

/-- One hex digit, upper case, as `urllib.quote` emits them. -/
def hexDigit (n : Nat) : Char :=
  if n < 10 then Char.ofNat (48 + n) else Char.ofNat (55 + n)

/-- The characters `urllib.quote` leaves unescaped with its default
`safe='/'`: letters, digits, `_.-` and `/`. -/
def isQuoteSafe (c : Char) : Bool :=
  isUpper c || isLower c || isDigit c || c == '_' || c == '.' || c == '-' || c == '/'

/-- Python 2 `urllib.quote(s)` (default `safe='/'`) over ASCII text:
safe characters pass through, every other byte becomes `%XX` with
upper-case hex digits. -/
def pyQuote : List Char → List Char
  | [] => []
  | c :: cs =>
    (if isQuoteSafe c then [c]
     else ['%', hexDigit (c.toNat / 16 % 16), hexDigit (c.toNat % 16)]) ++ pyQuote cs

/-- `HideReferers.replace` (`src/wiki.py` 379-383): group 1 is the matched
text minus the leading `href="` and the trailing quote.  The
`urlparse.urlparse` call in the source binds six locals that are never
used (the variable `url` is reassigned on the next line), so it has no
effect to model.  The replacement is the fixed Google indirection endpoint
with the quoted URL appended after `?sa=D&amp;q=`. -/
def hideReferersReplace (m : List Char) : List Char :=
  "href=\"".data ++
    ("http://www.google.com/url?sa=D&amp;q=".data ++ pyQuote ((m.drop 6).dropLast)) ++
    "\"".data

/-- `class HideReferers(Transform)` (`src/wiki.py` 373-383). -/
def HideReferers : Transform :=
  ⟨hideReferersMatchAt, hideReferersReplace⟩

/-- The oracle of the spec's WikiWords test vector: `FooBar` exists,
`BazQux` does not. -/
def sampleOracle (w : List Char) : Bool :=
  w == "FooBar".data

/-- `pat` occurs as a contiguous substring of the second argument. -/
def isSub (pat : List Char) : List Char → Bool
  | [] => pat.isEmpty
  | c :: rest => pat.isPrefixOf (c :: rest) || isSub pat rest

example : findMatches wikinameMatchAt ("FooBar and BazQux".data) = [(0, 6), (11, 17)] := by
  decide

example : findMatches wikinameMatchAt ("A_Bc".data) = [(0, 4)] := by decide

example : findMatches autoLinkMatchAt ("See http://example.com/page for info.".data) =
    [(3, 27)] := by decide

example : findMatches hideReferersMatchAt ("href=\"/FooBar\" href=\"http://x/\"".data) =
    [(15, 31)] := by decide

theorem getD_drop (l : List Char) :
    ∀ (i j : Nat) (d : Char), (l.drop i).getD j d = l.getD (i + j) d := by
  induction l with
  | nil => intro i j d; simp
  | cons c cs ih =>
    intro i j d
    cases i with
    | zero => simp
    | succ i => rw [Nat.succ_add]; exact ih i j d

theorem pyQuote_length_ge (v : List Char) : v.length ≤ (pyQuote v).length := by
  induction v with
  | nil => simp [pyQuote]
  | cons c cs ih =>
    rw [pyQuote]
    by_cases hc : isQuoteSafe c = true
    · simp [hc]; omega
    · simp [hc]; omega

/-- The substituted indirection value is always longer than the quoted URL
itself, so a rewritten `href` value never equals the URL it carries. -/
theorem endpoint_quote_ne (v : List Char) :
    "http://www.google.com/url?sa=D&amp;q=".data ++ pyQuote v ≠ v := by
  intro h
  have hlen := congrArg List.length h
  rw [List.length_append] at hlen
  have h37 : ("http://www.google.com/url?sa=D&amp;q=".data).length = 37 := by decide
  have := pyQuote_length_ge v
  omega

/-- **C2.** `WikiWords.replace` decides each matched token by the
page-existence lookup: an existing page gets an anchor of class
`wikiword` with href `/<token>`; a missing page gets an anchor of class
`wikiword_new` with href `/<token>?mode=edit` and a title hinting the page
will be created.  On the spec's test vector (oracle: `FooBar` exists,
`BazQux` does not), `"FooBar and BazQux"` yields exactly the `wikiword`
anchor to `/FooBar` and the `wikiword_new` anchor to `/BazQux?mode=edit`. -/
theorem wikiWords_replace_spec :
    (∀ (pe : List Char → Bool) (w : List Char), pe w = true →
      wikiWordsReplace pe w =
        "<a class=\"wikiword\" href=\"/".data ++ w ++ "\">".data ++ w ++ "</a>".data) ∧
    (∀ (pe : List Char → Bool) (w : List Char), pe w = false →
      wikiWordsReplace pe w =
        "<a title=\"".data ++ w ++
          " does not exist yet. Click to create it.\" class=\"wikiword_new\" href=\"/".data ++
          w ++ "?mode=edit\">".data ++ w ++ "?</a>".data) ∧
    Transform.run (WikiWords sampleOracle) ("FooBar and BazQux".data) =
      ("<a class=\"wikiword\" href=\"/FooBar\">FooBar</a> and " ++
        "<a title=\"BazQux does not exist yet. Click to create it.\" " ++
        "class=\"wikiword_new\" href=\"/BazQux?mode=edit\">BazQux?</a>").data := by
  refine ⟨?_, ?_, by decide⟩
  · intro pe w h; simp [wikiWordsReplace, h]
  · intro pe w h; simp [wikiWordsReplace, h]

/-- **C3, counterexample.**  The claim "no match consumed by the WikiWords
pattern contains an underscore" is false: on `"A_Bc"` the pattern matches
the whole string (Python's `\w` includes `_`), underscore included. -/
theorem wikiname_underscore_cex :
    ¬ ∀ content : List Char, ∀ me ∈ findMatches wikinameMatchAt content,
        ¬ '_' ∈ pySlice content me.1 me.2 := by
  intro h
  exact h ("A_Bc".data) (0, 4) (by decide) (by decide)

/-- **C3, amended.**  Every match of the WikiWord pattern starts with an
uppercase letter or digit (never an underscore) and contains a second
uppercase-or-digit segment start at least two characters in and at least
two characters before its end; but interior positions go through `\w`,
which accepts underscores, so a matched token may contain `_`. -/
theorem wikiname_match_shape (content : List Char) (me : Nat × Nat)
    (hme : me ∈ findMatches wikinameMatchAt content) :
    isSegStart (content.getD me.1 ' ') = true ∧
      content.getD me.1 ' ' ≠ '_' ∧
      ∃ j, me.1 + 2 ≤ j ∧ j + 2 ≤ me.2 ∧ isSegStart (content.getD j ' ') = true := by
  obtain ⟨-, -, hmatch, hle⟩ :=
    matchChain_mem (findMatches_chain wikinameMatchAt content) me hme
  obtain ⟨s, e⟩ := me
  simp only at hmatch hle ⊢
  rw [wikinameMatchAt] at hmatch
  cases hsuf : content.drop s with
  | nil => rw [hsuf] at hmatch; simp at hmatch
  | cons c rest =>
    rw [hsuf] at hmatch
    dsimp only at hmatch
    by_cases hseg : isSegStart c = true
    · have hc : content.getD s ' ' = c := by
        have := getD_drop content s 0 ' '
        rw [hsuf] at this
        simpa using this.symm
      rw [hc]
      rw [if_pos hseg] at hmatch
      refine ⟨hseg, ?_, ?_⟩
      · intro heq; rw [heq] at hseg; exact absurd hseg (by decide)
      · by_cases hany : ((List.range (runLen isWordChar (c :: rest))).any fun j =>
            decide (2 ≤ j) && decide (j + 2 ≤ runLen isWordChar (c :: rest)) &&
              isSegStart ((c :: rest).getD j ' ')) = true
        · obtain ⟨j, -, hj⟩ := List.any_eq_true.mp hany
          simp only [Bool.and_eq_true, decide_eq_true_eq] at hj
          obtain ⟨⟨hj2, hjn⟩, hjseg⟩ := hj
          rw [if_pos hany] at hmatch
          have hn : runLen isWordChar (c :: rest) = e - s := by
            injection hmatch
          refine ⟨s + j, by omega, by omega, ?_⟩
          have := getD_drop content s j ' '
          rw [hsuf] at this
          rw [← this]
          exact hjseg
        · rw [if_neg hany] at hmatch
          exact absurd hmatch (by simp)
    · rw [if_neg hseg] at hmatch
      exact absurd hmatch (by simp)

/-- Witness for `wikiname_match_shape` at the concrete match of
`"AbCd"`. -/
theorem wikiname_match_shape_witness :
    isSegStart (("AbCd".data).getD 0 ' ') = true ∧
      ("AbCd".data).getD 0 ' ' ≠ '_' ∧
      ∃ j, 0 + 2 ≤ j ∧ j + 2 ≤ 4 ∧ isSegStart (("AbCd".data).getD j ' ') = true :=
  wikiname_match_shape ("AbCd".data) (0, 4) (by decide)

/-- The `href` attribute values the `HideReferers` pattern finds in
`content`: each match's group 1 (the matched text minus the leading
`href="` and the trailing quote). -/
def hrefValues (content : List Char) : List (List Char) :=
  (findMatches hideReferersMatchAt content).map fun me =>
    ((pySlice content me.1 me.2).drop 6).dropLast

/-- **C4, counterexample.**  "The original absolute URL no longer appears
as a direct `href` value" fails as a statement over every content string:
every matched value is rewritten, but one href's rewritten value can equal
another href's original URL.  With
`href="http://www.google.com/url?sa=D&amp;q=httpz" href="httpz"`, the
first value is an original URL that is rewritten, yet it reappears as the
direct `href` value produced by rewriting `httpz`. -/
theorem hideReferers_cex :
    ¬ ∀ content : List Char, ∀ v ∈ hrefValues content,
        ¬ v ∈ hrefValues (Transform.run HideReferers content) := by
  intro h
  exact h ("href=\"http://www.google.com/url?sa=D&amp;q=httpz\" href=\"httpz\"".data)
    ("http://www.google.com/url?sa=D&amp;q=httpz".data) (by decide) (by decide)

/-- **C4, amended.**  Every matched `href="http..."` attribute value `v`
is replaced by the fixed indirection endpoint with `v` URL-encoded after
its `q` parameter; the substituted value is never `v` itself; and the
pattern only ever matches where the text starts with `href="http`, so
relative (non-http) href values never match and are left untouched (by C1,
text outside matches is preserved).  The global claim that an original URL
can never reappear as some direct href value is not recoverable (see the
counterexample). -/
theorem hideReferers_rewrite :
    (∀ m : List Char, hideReferersReplace m =
      "href=\"".data ++ ("http://www.google.com/url?sa=D&amp;q=".data ++
        pyQuote ((m.drop 6).dropLast)) ++ "\"".data) ∧
    (∀ m : List Char,
      "http://www.google.com/url?sa=D&amp;q=".data ++ pyQuote ((m.drop 6).dropLast) ≠
        (m.drop 6).dropLast) ∧
    (∀ content pos n, hideReferersMatchAt content pos = some n →
      ("href=\"http".data).isPrefixOf (content.drop pos) = true) := by
  refine ⟨fun m => rfl, fun m => endpoint_quote_ne _, ?_⟩
  intro content pos n h
  by_cases hp : ("href=\"http".data).isPrefixOf (content.drop pos) = true
  · exact hp
  · rw [hideReferersMatchAt] at h
    dsimp only at h
    rw [if_neg hp] at h
    exact absurd h (by simp)

/-- **C5, counterexample.**  The indirection rewrite does not use a query
parameter named `target`: on `href="http://x/"` the substituted attribute
value is the Google endpoint with `?sa=D&amp;q=http%3A//x/` — the
original URL is carried URL-encoded in the parameter named `q` (after a
fixed `sa=D`), and the string `target=` occurs nowhere in the output. -/
theorem hideReferers_target_cex :
    Transform.run HideReferers ("href=\"http://x/\"".data) =
      ("href=\"http://www.google.com/url?sa=D&amp;q=http%3A//x/\"".data) ∧
    isSub ("target=".data) (Transform.run HideReferers ("href=\"http://x/\"".data)) =
      false ∧
    isSub ("?sa=D&amp;q=".data) (Transform.run HideReferers ("href=\"http://x/\"".data)) =
      true := by
  refine ⟨by decide, by decide, by decide⟩

/-- **C5, amended.**  For every match, the substituted attribute value is
the fixed indirection endpoint `http://www.google.com/url` carrying the
original URL URL-encoded in the query parameter `q` (preceded by the fixed
parameter `sa=D`, with a literal `&amp;` separator), not in a parameter
named `target`. -/
theorem hideReferers_query_param (m : List Char) :
    hideReferersReplace m =
      "href=\"http://www.google.com/url?sa=D&amp;q=".data ++
        pyQuote ((m.drop 6).dropLast) ++ "\"".data := by
  rw [hideReferersReplace]
  rfl

/-- **C6.**  On `"See http://example.com/page for info."`, AutoLink emits
`<a class="autourl" href="http://example.com/page">http://example.com/page</a>`,
keeping the character before the URL (the space) and the trailing period
outside the anchor. -/
theorem autoLink_example :
    Transform.run AutoLink ("See http://example.com/page for info.".data) =
      ("See <a class=\"autourl\" href=\"http://example.com/page\">" ++
        "http://example.com/page</a> for info.").data := by
  decide

/-- **C10.**  The AutoLink pattern consumes one non-quote, non-word
character before the URL, so content beginning with `http://` or
`https://` at position 0 has no match there: every match starts at
position 1 or later, and the leading URL is never the linked group. -/
theorem autoLink_no_leading_url (content : List Char)
    (h : content.take 7 = "http://".data ∨ content.take 8 = "https://".data) :
    autoLinkMatchAt content 0 = none ∧
      ∀ me ∈ findMatches autoLinkMatchAt content, 1 ≤ me.1 := by
  have hnone : autoLinkMatchAt content 0 = none := by
    cases content with
    | nil =>
      rcases h with h | h
      · rw [List.take_nil] at h; exact absurd h (by decide)
      · rw [List.take_nil] at h; exact absurd h (by decide)
    | cons c cs =>
      have hc : c = 'h' := by
        rcases h with h | h
        · rw [show "http://".data = 'h' :: "ttp://".data from rfl,
            List.take_succ_cons] at h
          injection h with h1 h2
        · rw [show "https://".data = 'h' :: "ttps://".data from rfl,
            List.take_succ_cons] at h
          injection h with h1 h2
      subst hc
      rfl
  refine ⟨hnone, ?_⟩
  intro me hme
  obtain ⟨-, -, hmatch, -⟩ := matchChain_mem (findMatches_chain autoLinkMatchAt content) me hme
  rcases Nat.eq_zero_or_pos me.1 with hz | hp
  · rw [hz, hnone] at hmatch
    exact absurd hmatch (by simp)
  · exact hp

/-- Witness for `autoLink_no_leading_url` on `"http://a b"`. -/
theorem autoLink_no_leading_url_witness :
    autoLinkMatchAt ("http://a b".data) 0 = none ∧
      ∀ me ∈ findMatches autoLinkMatchAt ("http://a b".data), 1 ≤ me.1 :=
  autoLink_no_leading_url ("http://a b".data) (Or.inl (by decide))

/-!
## The versioning and diff engine

`Page` (`src/wiki.py` 155-314) stores the current page state in `Page`
entities and appends one `PageHistory` entity per save.  The datastore and
memcache are external collaborators: the datastore is modelled as explicit
lists of typed entities, timestamps (`datetime.datetime.now()`) as a
monotone `Nat` clock carried in the state, and memcache is transparent
(every save deletes the `page_` and `content_` keys, so a read never sees
a stale value; the cache is therefore not modelled separately).
`difflib.HtmlDiff().make_table` and `strftime` are stdlib collaborators,
taken as function parameters. -/

/-- A logged-in App Engine user; `nickname()` is its display name. -/
structure User where
  nickname : List Char
deriving DecidableEq

/-- A `Page` datastore entity: current state of one page. -/
structure PageEnt where
  name : List Char
  content : List Char
  created : Nat
  modified : Nat
  user : Option User
deriving DecidableEq

/-- A `PageHistory` datastore entity (`Page.save_to_history`): one
immutable snapshot.  `key` is the store-assigned `__key__` used to address
a version for diffing; `user` is absent (`none`) for an anonymous edit. -/
structure HistEnt where
  key : Nat
  name : List Char
  created : Nat
  content : List Char
  remote_addr : List Char
  comment : List Char
  user : Option User
deriving DecidableEq

/-- The datastore (plus the model's clock for `datetime.now()`). -/
structure Datastore where
  pages : List PageEnt
  history : List HistEnt
  clock : Nat
deriving DecidableEq

/-- A Python exception surfaced by the embedded code. -/
inductive PyErr where
  | attributeError
deriving DecidableEq

/-- `user.nickname()`: on `None` (anonymous edit) Python raises
`AttributeError: 'NoneType' object has no attribute 'nickname'`. -/
def pyNickname : Option User → Except PyErr (List Char)
  | none => Except.error PyErr.attributeError
  | some u => Except.ok u.nickname

/-- Python 2 `str.splitlines(1)`: split into lines keeping the line
terminators (`\r\n`, `\r`, `\n`). -/
def splitlinesAux : List Char → List Char → List (List Char)
  | [], acc => if acc.isEmpty then [] else [acc.reverse]
  | '\r' :: '\n' :: rest, acc => (acc.reverse ++ ['\r', '\n']) :: splitlinesAux rest []
  | '\r' :: rest, acc => (acc.reverse ++ ['\r']) :: splitlinesAux rest []
  | '\n' :: rest, acc => (acc.reverse ++ ['\n']) :: splitlinesAux rest []
  | c :: rest, acc => splitlinesAux rest (c :: acc)

/-- `content.splitlines(1)`. -/
def splitlines (l : List Char) : List (List Char) :=
  splitlinesAux l []

/-- `Page.load_from_history` (`src/wiki.py` 304-314): query `PageHistory`
for `name =` and `__key__ =`, `Get(1)` — the first matching entity or
`None`.  (The wrapping into a `Page` instance copies the entity's
`content`, `created` and `user` fields one to one, so the entity itself
stands for the loaded page; a malformed key string would raise in
`datastore_types.Key` before the query, so keys here are already
well-formed identifiers.) -/
def load_from_history (hist : List HistEnt) (name : List Char) (key : Nat) :
    Option HistEnt :=
  hist.find? fun en => en.name == name && en.key == key

/-- `Page.diff_history` (`src/wiki.py` 265-276): load both versions,
return `None` if either is missing; otherwise build the two captions
`"Edited on %s by %s" % (created.strftime(...), user.nickname())` — which
raises `AttributeError` when a loaded version has no user — and hand the
newline-split contents and captions to `difflib.HtmlDiff().make_table`.
`fmt` stands for `strftime("%a, %b %d, %Y at %I:%M %p")` and `make_table`
for the difflib collaborator. -/
def diff_history (hist : List HistEnt) (fmt : Nat → List Char)
    (make_table : List (List Char) → List (List Char) → List Char → List Char → List Char)
    (name : List Char) (v1 v2 : Nat) : Except PyErr (Option (List Char)) :=
  match load_from_history hist name v1, load_from_history hist name v2 with
  | some e1, some e2 =>
    match pyNickname e1.user with
    | Except.error er => Except.error er
    | Except.ok n1 =>
      match pyNickname e2.user with
      | Except.error er => Except.error er
      | Except.ok n2 =>
        Except.ok (some (make_table (splitlines e1.content) (splitlines e2.content)
          ("Edited on ".data ++ fmt e1.created ++ " by ".data ++ n1)
          ("Edited on ".data ++ fmt e2.created ++ " by ".data ++ n2)))
  | _, _ => Except.ok none

/-- A history store whose older entry was saved anonymously (no `user`). -/
def anonStore : List HistEnt :=
  [⟨0, "FooBar".data, 5, "a\n".data, "1.2.3.4".data, "first".data, none⟩,
   ⟨1, "FooBar".data, 7, "b\n".data, "1.2.3.4".data, "second".data,
     some ⟨"alice".data⟩⟩]

/-- **C7, counterexample.**  With both entry identifiers resolving but the
first entry's author null, `diff_history` does not produce captions: it
raises `AttributeError` (`None.nickname()`), so the claim that the diff
succeeds even for a null author is false on the code — there is no
anonymous marker. -/
theorem diff_caption_cex :
    (load_from_history anonStore ("FooBar".data) 0).isSome = true ∧
    (load_from_history anonStore ("FooBar".data) 1).isSome = true ∧
    diff_history anonStore (fun _ => "T".data) (fun _ _ _ _ => [])
        ("FooBar".data) 0 1 =
      Except.error PyErr.attributeError := by
  refine ⟨rfl, rfl, rfl⟩

/-- **C7, amended.**  When both history entries resolve **and both have a
non-null author**, the diff succeeds and each side's caption is
`"Edited on <formatted timestamp> by <author nickname>"`; a null author
instead raises `AttributeError` (see the counterexample), so no anonymous
marker is ever rendered. -/
theorem diff_caption_spec (hist : List HistEnt) (fmt : Nat → List Char)
    (make_table : List (List Char) → List (List Char) → List Char → List Char → List Char)
    (name : List Char) (v1 v2 : Nat) (e1 e2 : HistEnt) (u1 u2 : User)
    (h1 : load_from_history hist name v1 = some e1)
    (h2 : load_from_history hist name v2 = some e2)
    (hu1 : e1.user = some u1) (hu2 : e2.user = some u2) :
    diff_history hist fmt make_table name v1 v2 =
      Except.ok (some (make_table (splitlines e1.content) (splitlines e2.content)
        ("Edited on ".data ++ fmt e1.created ++ " by ".data ++ u1.nickname)
        ("Edited on ".data ++ fmt e2.created ++ " by ".data ++ u2.nickname))) := by
  rw [diff_history, h1, h2]
  dsimp only
  rw [hu1, hu2]
  dsimp only [pyNickname]

/-- A history store with two authored entries of the same page. -/
def goodStore : List HistEnt :=
  [⟨0, "FooBar".data, 3, "a\nb\n".data, "1.2.3.4".data, "c1".data,
     some ⟨"alice".data⟩⟩,
   ⟨1, "FooBar".data, 5, "a\nc\n".data, "1.2.3.4".data, "c2".data,
     some ⟨"bob".data⟩⟩]

/-- Witness for `diff_caption_spec` on `goodStore`. -/
theorem diff_caption_spec_witness :
    diff_history goodStore (fun _ => "T".data) (fun _ _ c1 c2 => c1 ++ c2)
        ("FooBar".data) 0 1 =
      Except.ok (some ("Edited on T by aliceEdited on T by bob".data)) := by
  have h := diff_caption_spec goodStore (fun _ => "T".data)
    (fun _ _ c1 c2 => c1 ++ c2) ("FooBar".data) 0 1 _ _
    ⟨"alice".data⟩ ⟨"bob".data⟩ rfl rfl rfl rfl
  exact h.trans (by rfl)

/-- **C8.**  If either well-formed version identifier does not resolve to
a stored history entry for the page's name, `diff_history` returns the
Python `None` (`Except.ok none`) — no exception, no diff. -/
theorem diff_notfound (hist : List HistEnt) (fmt : Nat → List Char)
    (make_table : List (List Char) → List (List Char) → List Char → List Char → List Char)
    (name : List Char) (v1 v2 : Nat)
    (h : (∀ en ∈ hist, ¬(en.name = name ∧ en.key = v1)) ∨
      (∀ en ∈ hist, ¬(en.name = name ∧ en.key = v2))) :
    diff_history hist fmt make_table name v1 v2 = Except.ok none := by
  have hload : ∀ v, (∀ en ∈ hist, ¬(en.name = name ∧ en.key = v)) →
      load_from_history hist name v = none := by
    intro v hv
    rw [load_from_history, List.find?_eq_none]
    intro en hen
    simp only [Bool.and_eq_true, beq_iff_eq, not_and]
    intro hn hk
    exact hv en hen ⟨hn, hk⟩
  rcases h with hv | hv
  · rw [diff_history, hload v1 hv]
  · cases hl1 : load_from_history hist name v1 with
    | none => rw [diff_history, hl1]
    | some e1 => rw [diff_history, hl1, hload v2 hv]

/-- A one-entry history store. -/
def oneStore : List HistEnt :=
  [⟨0, "FooBar".data, 3, "x".data, "1.2.3.4".data, "c".data, some ⟨"al".data⟩⟩]

/-- Witness for `diff_notfound`: key 5 is absent from `oneStore`. -/
theorem diff_notfound_witness :
    diff_history oneStore (fun _ => "T".data) (fun _ _ c1 c2 => c1 ++ c2)
        ("FooBar".data) 0 5 =
      Except.ok none :=
  diff_notfound oneStore (fun _ => "T".data) (fun _ _ c1 c2 => c1 ++ c2)
    ("FooBar".data) 0 5 (Or.inr (by decide))

/-- The in-memory `Page` object (`Page.__init__`, `src/wiki.py` 162-182),
plus the `content`/`remote_addr`/`comment` attributes the POST handler
assigns before calling `save()`. -/
structure PageObj where
  name : List Char
  entity : Option PageEnt
  content : List Char
  user : Option User
  created : Nat
  modified : Nat
  remote_addr : List Char
  comment : List Char

/-- `cgi.escape` (no quote escaping): `&`, `<`, `>` become entities. -/
def cgiEscape : List Char → List Char
  | [] => []
  | c :: cs =>
    (if c == '&' then "&amp;".data
     else if c == '<' then "&lt;".data
     else if c == '>' then "&gt;".data
     else [c]) ++ cgiEscape cs

/-- `name.replace('_', '')` — the underscore-stripping the source applies
to page names before datastore queries. -/
def stripUnderscores (name : List Char) : List Char :=
  name.filter fun c => !(c == '_')

/-- The datastore query of `Page.load` (`src/wiki.py` 286-297): first
`Page` entity whose stored name equals the underscore-stripped requested
name (memcache is transparent: it is deleted on every save). -/
def findPageEnt (ds : Datastore) (name : List Char) : Option PageEnt :=
  ds.pages.find? fun p => p.name == stripUnderscores name

/-- `Page.load` / `Page.__init__` (`src/wiki.py` 162-182, 278-297): wrap
the entity if one exists, else a fresh page whose default content is
`<h1>` + escaped name + `</h1>` and whose `created`/`modified` are the
load-time `now` (the model's current clock). -/
def Page.load (ds : Datastore) (name : List Char) : PageObj :=
  match findPageEnt ds name with
  | some en => ⟨name, some en, en.content, en.user, en.created, en.modified, [], []⟩
  | none =>
    ⟨name, none, "<h1>".data ++ cgiEscape name ++ "</h1>".data, none,
      ds.clock, ds.clock, [], []⟩

/-- `Page.save_to_history` (`src/wiki.py` 244-256): append one
`PageHistory` entity with the page's name and content, `created` set to
`self.modified` (which `save()` does **not** refresh — it is the value
loaded from the entity, or the load-time clock for a new page), and the
current user if logged in.  The store assigns the next key. -/
def Page.save_to_history (ds : Datastore) (self : PageObj) (cu : Option User) :
    Datastore :=
  { ds with history := ds.history ++
      [⟨ds.history.length, self.name, self.modified, self.content,
        self.remote_addr, self.comment, cu⟩] }

/-- `Page.save` (`src/wiki.py` 219-242) at save-time clock `now`: update
the existing `Page` entity (content, `modified := now`, user set when
logged in, deleted otherwise) or create a new one (`created = now`), put
it, invalidate memcache (transparent here), then store a history copy. -/
def Page.save (ds : Datastore) (self : PageObj) (cu : Option User) (now : Nat) :
    Datastore :=
  Page.save_to_history
    { ds with pages :=
        match self.entity with
        | some en => ds.pages.map fun p =>
            if p.name = en.name then
              { en with content := self.content, modified := now, user := cu }
            else p
        | none => ds.pages ++
            [{ name := self.name, content := self.content, created := now,
               modified := now, user := cu }] }
    self cu

/-- The POST handler's edit flow (`WikiPage.post`, `src/wiki.py` 134-152):
load the page, assign `content`, `remote_addr` and `comment`, save.  The
load happens at the state's clock, the save one tick later, and the clock
advances past both (`datetime.now()` is monotone). -/
def postEdit (ds : Datastore) (name content remote_addr comment : List Char)
    (cu : Option User) : Datastore :=
  { Page.save ds
      { Page.load ds name with
        content := content, remote_addr := remote_addr, comment := comment }
      cu (ds.clock + 1) with
    clock := ds.clock + 2 }

/-- Datastore states reachable from the empty store by edits.  Page names
are underscore-free: the GET handler permanently redirects names with
underscores to their stripped form before any page is created, which the
spec records as pre-storage canonicalization. -/
inductive Reachable : Datastore → Prop where
  | base : Reachable ⟨[], [], 0⟩
  | step (ds : Datastore) (name content remote_addr comment : List Char)
      (cu : Option User) : Reachable ds → '_' ∉ name →
      Reachable (postEdit ds name content remote_addr comment cu)

/-- The `PageHistory` entities of one page, in store (append) order
(`Page.fetch_history` filters on `name =`; its 1000-entry cap only drops
oldest entries, never the most recent one). -/
def historyFor (hist : List HistEnt) (name : List Char) : List HistEnt :=
  hist.filter fun en => en.name == name

/-- Combining step for `mostRecent`: keep the entry with the later
`created` (the first such on ties), i.e. the entry `fetch_history`'s
`created DESCENDING` ordering puts first. -/
def mrStep (acc : Option HistEnt) (en : HistEnt) : Option HistEnt :=
  match acc with
  | none => some en
  | some a => if a.created < en.created then some en else some a

/-- The most recent history entry of a page: maximal `created`. -/
def mostRecent (es : List HistEnt) : Option HistEnt :=
  es.foldl mrStep none

theorem stripUnderscores_eq_self {name : List Char} (h : '_' ∉ name) :
    stripUnderscores name = name := by
  rw [stripUnderscores, List.filter_eq_self]
  intro c hc
  simp only [Bool.not_eq_true', beq_eq_false_iff_ne, ne_eq]
  intro heq
  exact h (heq ▸ hc)

theorem pageEq_of_name_eq :
    ∀ (l : List PageEnt), (l.Pairwise fun a b => a.name ≠ b.name) →
      ∀ p q : PageEnt, p ∈ l → q ∈ l → p.name = q.name → p = q := by
  intro l
  induction l with
  | nil => intro _ p q hp _ _; simp at hp
  | cons a t ih =>
    intro hpw p q hp hq hname
    rw [List.pairwise_cons] at hpw
    rcases List.mem_cons.mp hp with rfl | hp1
    · rcases List.mem_cons.mp hq with rfl | hq1
      · rfl
      · exact absurd hname (hpw.1 q hq1)
    · rcases List.mem_cons.mp hq with rfl | hq1
      · exact absurd hname.symm (hpw.1 p hp1)
      · exact ih hpw.2 p q hp1 hq1 hname

theorem historyFor_append (hist : List HistEnt) (en : HistEnt) (n : List Char) :
    historyFor (hist ++ [en]) n =
      historyFor hist n ++ if en.name == n then [en] else [] := by
  rw [historyFor, historyFor, List.filter_append]
  congr 1
  rw [List.filter_cons]
  by_cases hn : (en.name == n) = true
  · simp [hn]
  · simp [hn]

theorem foldl_mrStep_chain :
    ∀ (l : List HistEnt) (a : HistEnt),
      List.Chain' (fun x y => x.created < y.created) (a :: l) →
      List.foldl mrStep (some a) l = (a :: l).getLast? := by
  intro l
  induction l with
  | nil => intro a _; simp
  | cons b t ih =>
    intro a h
    rw [List.chain'_cons] at h
    rw [List.foldl_cons]
    have hstep : mrStep (some a) b = some b := by
      simp [mrStep, h.1]
    rw [hstep, ih b h.2, List.getLast?_cons_cons]

theorem mostRecent_chain {l : List HistEnt}
    (h : List.Chain' (fun x y => x.created < y.created) l) :
    mostRecent l = l.getLast? := by
  cases l with
  | nil => rfl
  | cons a t =>
    rw [mostRecent, List.foldl_cons]
    exact foldl_mrStep_chain t a h

/-- The inductive invariant maintained by `postEdit`: page names are
unique, every page's `modified` stays behind the clock, every history
entry belongs to a stored page, and each stored page's history is
nonempty, strictly increasing in `created`, with its last (most recent)
entry carrying exactly the page's current content and a `created` behind
the page's `modified`. -/
def DsInv (ds : Datastore) : Prop :=
  ds.pages.Pairwise (fun a b => a.name ≠ b.name) ∧
    (∀ p ∈ ds.pages, p.modified < ds.clock) ∧
    (∀ en ∈ ds.history, ∃ p ∈ ds.pages, p.name = en.name) ∧
    ∀ p ∈ ds.pages,
      historyFor ds.history p.name ≠ [] ∧
        List.Chain' (fun a b => a.created < b.created) (historyFor ds.history p.name) ∧
        ∀ en, (historyFor ds.history p.name).getLast? = some en →
          en.content = p.content ∧ en.created < p.modified

theorem postEdit_some {ds : Datastore} {name : List Char} {en : PageEnt}
    (h : findPageEnt ds name = some en) (content ra cm : List Char)
    (cu : Option User) :
    postEdit ds name content ra cm cu =
      ⟨ds.pages.map fun p =>
          if p.name = en.name then
            { en with content := content, modified := ds.clock + 1, user := cu }
          else p,
        ds.history ++ [⟨ds.history.length, name, en.modified, content, ra, cm, cu⟩],
        ds.clock + 2⟩ := by
  simp [postEdit, Page.load, h, Page.save, Page.save_to_history]

theorem postEdit_none {ds : Datastore} {name : List Char}
    (h : findPageEnt ds name = none) (content ra cm : List Char)
    (cu : Option User) :
    postEdit ds name content ra cm cu =
      ⟨ds.pages ++ [⟨name, content, ds.clock + 1, ds.clock + 1, cu⟩],
        ds.history ++ [⟨ds.history.length, name, ds.clock, content, ra, cm, cu⟩],
        ds.clock + 2⟩ := by
  simp [postEdit, Page.load, h, Page.save, Page.save_to_history]

theorem updName (en : PageEnt) (c : List Char) (md : Nat) (cu : Option User)
    (p : PageEnt) :
    (if p.name = en.name then { en with content := c, modified := md, user := cu }
     else p).name = p.name := by
  by_cases hp : p.name = en.name
  · rw [if_pos hp]; exact hp.symm
  · rw [if_neg hp]

theorem historyFor_snoc (hist : List HistEnt) (en : HistEnt) (n : List Char)
    (hn : en.name = n) :
    historyFor (hist ++ [en]) n = historyFor hist n ++ [en] := by
  rw [historyFor_append]
  have : (en.name == n) = true := beq_iff_eq.mpr hn
  rw [if_pos this]

theorem historyFor_snoc_ne (hist : List HistEnt) (en : HistEnt) (n : List Char)
    (hn : en.name ≠ n) :
    historyFor (hist ++ [en]) n = historyFor hist n := by
  rw [historyFor_append]
  have : ¬(en.name == n) = true := by
    intro hcontra
    exact hn (beq_iff_eq.mp hcontra)
  rw [if_neg this, List.append_nil]

theorem dsInv_step_some {ds : Datastore} {name : List Char} {en : PageEnt}
    (hinv : DsInv ds) (hname : '_' ∉ name)
    (hfind : findPageEnt ds name = some en)
    (content ra cm : List Char) (cu : Option User) :
    DsInv (postEdit ds name content ra cm cu) := by
  obtain ⟨ih1, ih2, ih3, ih4⟩ := hinv
  have hstrip : stripUnderscores name = name := stripUnderscores_eq_self hname
  have hmem_en : en ∈ ds.pages := List.mem_of_find?_eq_some hfind
  have hname_en : en.name = name := by
    have h := List.find?_some hfind
    rw [hstrip] at h
    exact beq_iff_eq.mp h
  rw [postEdit_some hfind content ra cm cu]
  have hhistEq : ∀ n : List Char, n = name →
      historyFor (ds.history ++
          [⟨ds.history.length, name, en.modified, content, ra, cm, cu⟩]) n =
        historyFor ds.history n ++
          [⟨ds.history.length, name, en.modified, content, ra, cm, cu⟩] := by
    intro n hn
    exact historyFor_snoc _ _ _ hn.symm
  have hhistNe : ∀ n : List Char, n ≠ name →
      historyFor (ds.history ++
          [⟨ds.history.length, name, en.modified, content, ra, cm, cu⟩]) n =
        historyFor ds.history n := by
    intro n hn
    exact historyFor_snoc_ne _ _ _ fun hcontra => hn hcontra.symm
  refine ⟨?_, ?_, ?_, ?_⟩
  · dsimp only
    refine List.Pairwise.map _ ?_ ih1
    intro a b hab
    rw [updName en content (ds.clock + 1) cu a, updName en content (ds.clock + 1) cu b]
    exact hab
  · intro p' hp'
    dsimp only at hp' ⊢
    obtain ⟨q, hq, rfl⟩ := List.mem_map.mp hp'
    by_cases hqn : q.name = en.name
    · rw [if_pos hqn]
      dsimp only
      omega
    · rw [if_neg hqn]
      have := ih2 q hq
      omega
  · intro enEl henEl
    dsimp only at henEl ⊢
    rcases List.mem_append.mp henEl with hold | hnw
    · obtain ⟨p, hp, hpn⟩ := ih3 enEl hold
      exact ⟨_, List.mem_map_of_mem _ hp, by rw [updName en content (ds.clock + 1) cu p]; exact hpn⟩
    · have henew : enEl = ⟨ds.history.length, name, en.modified, content, ra, cm, cu⟩ := by
        simpa using hnw
      subst henew
      refine ⟨_, List.mem_map_of_mem _ hmem_en, ?_⟩
      rw [updName en content (ds.clock + 1) cu en]
      exact hname_en
  · intro p' hp'
    dsimp only at hp' ⊢
    obtain ⟨q, hq, rfl⟩ := List.mem_map.mp hp'
    by_cases hqn : q.name = en.name
    · have hq_en : q = en := pageEq_of_name_eq ds.pages ih1 q en hq hmem_en hqn
      subst hq_en
      rw [if_pos rfl]
      dsimp only
      rw [hname_en, hhistEq name rfl]
      obtain ⟨hne, hchain, hlast⟩ := ih4 q hq
      rw [hname_en] at hne hchain hlast
      cases hgl : (historyFor ds.history name).getLast? with
      | none =>
        rw [List.getLast?_eq_none_iff] at hgl
        exact absurd hgl hne
      | some lastEn =>
        obtain ⟨hlc, hlcreated⟩ := hlast lastEn hgl
        refine ⟨by simp, ?_, ?_⟩
        · rw [List.chain'_append]
          refine ⟨hchain, List.chain'_singleton _, ?_⟩
          intro x hx y hy
          rw [hgl] at hx
          simp at hx hy
          subst hx
          subst hy
          exact hlcreated
        · intro en' hen'
          rw [List.getLast?_concat] at hen'
          injection hen' with hen'
          subst hen'
          dsimp only
          have := ih2 q hq
          exact ⟨rfl, by omega⟩
    · rw [if_neg hqn]
      have hqname : q.name ≠ name := by rw [← hname_en]; exact hqn
      rw [hhistNe q.name hqname]
      exact ih4 q hq

theorem dsInv_step_none {ds : Datastore} {name : List Char}
    (hinv : DsInv ds) (hname : '_' ∉ name)
    (hfind : findPageEnt ds name = none)
    (content ra cm : List Char) (cu : Option User) :
    DsInv (postEdit ds name content ra cm cu) := by
  obtain ⟨ih1, ih2, ih3, ih4⟩ := hinv
  have hstrip : stripUnderscores name = name := stripUnderscores_eq_self hname
  have hnone : ∀ p ∈ ds.pages, p.name ≠ name := by
    intro p hp heq
    have h := List.find?_eq_none.mp hfind p hp
    rw [hstrip] at h
    exact h (beq_iff_eq.mpr heq)
  rw [postEdit_none hfind content ra cm cu]
  have hempty : historyFor ds.history name = [] := by
    cases hemp : historyFor ds.history name with
    | nil => rfl
    | cons x xs =>
      have hx : x ∈ historyFor ds.history name := by
        rw [hemp]; exact List.mem_cons_self _ _
      rw [historyFor] at hx
      have hx2 := List.mem_filter.mp hx
      obtain ⟨p, hp, hpn⟩ := ih3 x hx2.1
      have hxn : x.name = name := beq_iff_eq.mp hx2.2
      exact absurd (hpn.trans hxn) (hnone p hp)
  refine ⟨?_, ?_, ?_, ?_⟩
  · dsimp only
    rw [List.pairwise_append]
    refine ⟨ih1, by simp, ?_⟩
    intro a ha b hb
    have hb1 : b = ⟨name, content, ds.clock + 1, ds.clock + 1, cu⟩ := by simpa using hb
    subst hb1
    exact hnone a ha
  · intro p' hp'
    dsimp only at hp' ⊢
    rcases List.mem_append.mp hp' with hold | hnw
    · have := ih2 p' hold
      omega
    · have hp1 : p' = ⟨name, content, ds.clock + 1, ds.clock + 1, cu⟩ := by simpa using hnw
      subst hp1
      dsimp only
      omega
  · intro enEl henEl
    dsimp only at henEl ⊢
    rcases List.mem_append.mp henEl with hold | hnw
    · obtain ⟨p, hp, hpn⟩ := ih3 enEl hold
      exact ⟨p, List.mem_append_left _ hp, hpn⟩
    · have henew : enEl = ⟨ds.history.length, name, ds.clock, content, ra, cm, cu⟩ := by
        simpa using hnw
      subst henew
      refine ⟨⟨name, content, ds.clock + 1, ds.clock + 1, cu⟩, ?_, rfl⟩
      exact List.mem_append_right _ (List.mem_singleton.mpr rfl)
  · intro p' hp'
    dsimp only at hp' ⊢
    rcases List.mem_append.mp hp' with hold | hnw
    · rw [historyFor_snoc_ne _ _ _ (fun hcontra => hnone p' hold hcontra.symm)]
      exact ih4 p' hold
    · have hp1 : p' = ⟨name, content, ds.clock + 1, ds.clock + 1, cu⟩ := by simpa using hnw
      subst hp1
      dsimp only
      rw [historyFor_snoc _ _ _ rfl, hempty, List.nil_append]
      refine ⟨by simp, List.chain'_singleton _, ?_⟩
      intro en' hen'
      simp only [List.getLast?_singleton] at hen'
      injection hen' with hen'
      subst hen'
      exact ⟨rfl, show ds.clock < ds.clock + 1 by omega⟩

theorem reachable_inv {ds : Datastore} (h : Reachable ds) : DsInv ds := by
  induction h with
  | base =>
    refine ⟨List.Pairwise.nil, ?_, ?_, ?_⟩
    · intro p hp; simp at hp
    · intro en hen; simp at hen
    · intro p hp; simp at hp
  | step ds name content ra cm cu hds hn ih =>
    cases hfind : findPageEnt ds name with
    | some en => exact dsInv_step_some ih hn hfind content ra cm cu
    | none => exact dsInv_step_none ih hn hfind content ra cm cu

/-- **C9.**  In every state reachable from the empty store by edits
(`save()` being the only mutator), every stored page's most recent history
entry — the one `fetch_history`'s `created DESCENDING` ordering puts
first — carries exactly the page's current content: each save writes the
same content value to the `Page` record and to the appended `PageHistory`
entity. -/
theorem save_history_invariant (ds : Datastore) (hreach : Reachable ds)
    (p : PageEnt) (hp : p ∈ ds.pages) :
    ∃ en, mostRecent (historyFor ds.history p.name) = some en ∧
      en.content = p.content := by
  obtain ⟨-, -, -, h4⟩ := reachable_inv hreach
  obtain ⟨hne, hchain, hlast⟩ := h4 p hp
  rw [mostRecent_chain hchain]
  cases hgl : (historyFor ds.history p.name).getLast? with
  | none =>
    rw [List.getLast?_eq_none_iff] at hgl
    exact absurd hgl hne
  | some en => exact ⟨en, rfl, (hlast en hgl).1⟩

/-- Witness for `save_history_invariant`: one edit from the empty store. -/
theorem save_history_invariant_witness :
    ∃ en, mostRecent (historyFor
        (postEdit ⟨[], [], 0⟩ ("FooBar".data) ("c".data) ("1.2.3.4".data)
          ("m".data) none).history
        ((⟨"FooBar".data, "c".data, 1, 1, none⟩ : PageEnt).name)) = some en ∧
      en.content = (⟨"FooBar".data, "c".data, 1, 1, none⟩ : PageEnt).content :=
  save_history_invariant _
    (Reachable.step ⟨[], [], 0⟩ ("FooBar".data) ("c".data) ("1.2.3.4".data)
      ("m".data) none Reachable.base (by decide))
    ⟨"FooBar".data, "c".data, 1, 1, none⟩ (by decide)
